import Mathlib

/-!
Verification of core routines of the D-MMVAE repository:
trainer utilities (`kl_divergence`, `cyclic_annealing`, `calculate_r2`
from `src/mmvae/trainers/utils.py`) and the data-preprocessing helpers
(`normalize_data`, `verify_data` from
`src/scripts/data-preprocessing/data_processing_functions.py`).

Numeric tensors and sparse-matrix entries are modelled over `ℚ`
(exact arithmetic in place of machine floats); transcendental library
calls (`exp`, `log1p`) are abstract function parameters; a float result
that is NaN or infinite (a division by a zero denominator) is modelled
by a dedicated constructor, since a rational model cannot carry it.
-/

namespace DMMVAE

/-! ## `cyclic_annealing` (src/mmvae/trainers/utils.py, lines 17-48) -/

/-- Embedding of `cyclic_annealing`.  `batch_iteration` and
`cycle_length` are the integer arguments; betas are rationals.
`cycle_position = batch_iteration % cycle_length`; the comparison and
the linear interpolation follow the Python source, with Python float
division `cycle_length / 2` modelled as exact division in `ℚ`. -/
def cyclic_annealing (batch_iteration cycle_length : ℕ)
    (min_beta max_beta : ℚ)
    (ceil_downswings floor_upswings : Bool) : ℚ :=
  let cycle_position : ℕ := batch_iteration % cycle_length
  if (cycle_position : ℚ) < (cycle_length : ℚ) / 2 then
    if floor_upswings then min_beta
    else min_beta + (max_beta - min_beta) * (2 * cycle_position / cycle_length)
  else
    if ceil_downswings then max_beta
    else max_beta -
      (max_beta - min_beta) * (2 * ((cycle_position : ℚ) - (cycle_length : ℚ) / 2) / cycle_length)

end DMMVAE

namespace DMMVAE

/-- C6: the cyclic annealing value always lies in `[min_beta, max_beta]`. -/
theorem cyclic_annealing_mem_Icc (batch_iteration cycle_length : ℕ)
    (min_beta max_beta : ℚ) (ceil_downswings floor_upswings : Bool)
    (hL : 0 < cycle_length) (hmm : min_beta ≤ max_beta) :
    min_beta ≤ cyclic_annealing batch_iteration cycle_length min_beta max_beta
        ceil_downswings floor_upswings ∧
    cyclic_annealing batch_iteration cycle_length min_beta max_beta
        ceil_downswings floor_upswings ≤ max_beta := by
  unfold cyclic_annealing
  set p : ℕ := batch_iteration % cycle_length with hp
  have hpL : p < cycle_length := Nat.mod_lt _ hL
  have hpLQ : (p : ℚ) < (cycle_length : ℚ) := by exact_mod_cast hpL
  have hLQ : (0 : ℚ) < (cycle_length : ℚ) := by exact_mod_cast hL
  have hp0 : (0 : ℚ) ≤ (p : ℚ) := by positivity
  by_cases hup : (p : ℚ) < (cycle_length : ℚ) / 2
  · simp only [hup, if_true]
    cases floor_upswings
    · simp only [Bool.false_eq_true, if_false]
      have ht0 : (0 : ℚ) ≤ 2 * p / cycle_length := by positivity
      have ht1 : 2 * (p : ℚ) / cycle_length ≤ 1 := by
        rw [div_le_one hLQ]
        linarith
      constructor
      · nlinarith
      · nlinarith
    · simp only [if_true]
      exact ⟨le_refl _, hmm⟩
  · simp only [hup, if_false]
    cases ceil_downswings
    · simp only [Bool.false_eq_true, if_false]
      have hge : (cycle_length : ℚ) / 2 ≤ (p : ℚ) := le_of_not_lt hup
      have ht0 : (0 : ℚ) ≤ 2 * ((p : ℚ) - (cycle_length : ℚ) / 2) / cycle_length := by
        apply div_nonneg _ (le_of_lt hLQ)
        linarith
      have ht1 : 2 * ((p : ℚ) - (cycle_length : ℚ) / 2) / cycle_length ≤ 1 := by
        rw [div_le_one hLQ]
        linarith
      constructor
      · nlinarith
      · nlinarith
    · simp only [if_true]
      exact ⟨hmm, le_refl _⟩

/-- Witness for `cyclic_annealing_mem_Icc` at a concrete input. -/
theorem cyclic_annealing_mem_Icc_witness :
    (0 : ℚ) ≤ cyclic_annealing 3 8 0 1 true false ∧
    cyclic_annealing 3 8 0 1 true false ≤ 1 :=
  cyclic_annealing_mem_Icc 3 8 0 1 true false (by decide) (by norm_num)

/-- C1 counterexample: at the cycle midpoint (`batch_iteration = 1`,
`cycle_length = 2`, so `batch_iteration % cycle_length = 1 = cycle_length / 2`)
with `floor_upswings = true`, the function returns `max_beta = 1`, not
`min_beta = 0` — the midpoint position falls in the downswing branch, where
`floor_upswings` is never consulted.  Shown with `ceil_downswings = false`
as well, so the value is computed by the downswing formula, not the clamp. -/
theorem cyclic_annealing_midpoint_counterexample :
    ((1 % 2 : ℕ) : ℚ) = (2 : ℚ) / 2 ∧
    cyclic_annealing 1 2 0 1 false true = 1 ∧
    cyclic_annealing 1 2 0 1 true true = 1 ∧
    (1 : ℚ) ≠ 0 := by
  refine ⟨by norm_num, ?_, ?_, by norm_num⟩ <;>
    · unfold cyclic_annealing
      norm_num

/-- C1 amended: at the cycle midpoint (the position where
`batch_iteration % cycle_length` equals `cycle_length / 2` exactly, which
requires an even cycle length), `cyclic_annealing` returns `max_beta`
regardless of both flags; `floor_upswings` affects only positions strictly
before the midpoint. -/
theorem cyclic_annealing_midpoint_eq_max (batch_iteration cycle_length : ℕ)
    (min_beta max_beta : ℚ) (ceil_downswings floor_upswings : Bool)
    (hL : 0 < cycle_length)
    (hmid : ((batch_iteration % cycle_length : ℕ) : ℚ) = (cycle_length : ℚ) / 2) :
    cyclic_annealing batch_iteration cycle_length min_beta max_beta
      ceil_downswings floor_upswings = max_beta := by
  unfold cyclic_annealing
  simp only [hmid, lt_self_iff_false, if_false]
  cases ceil_downswings
  · simp only [Bool.false_eq_true, if_false, sub_self]
    ring
  · simp only [if_true]

/-- Witness for `cyclic_annealing_midpoint_eq_max` at a concrete input. -/
theorem cyclic_annealing_midpoint_eq_max_witness :
    cyclic_annealing 5 2 (3 : ℚ) 7 false true = 7 :=
  cyclic_annealing_midpoint_eq_max 5 2 3 7 false true (by decide) (by norm_num)

end DMMVAE

namespace DMMVAE

/-! ## `kl_divergence` (src/mmvae/trainers/utils.py, lines 3-15) -/

/-- Embedding of `kl_divergence`:
`-0.5 * torch.sum(1 + logvar - mu.pow(2) - logvar.exp())`.
Tensors are flattened element lists over `ℚ`; the element-wise tensor
arithmetic pairs `mu` and `logvar` position by position (`List.zip`);
the library exponential is an abstract parameter `ex`. -/
def kl_divergence (ex : ℚ → ℚ) (mu logvar : List ℚ) : ℚ :=
  -0.5 * ((mu.zip logvar).map (fun p => 1 + p.2 - p.1 ^ 2 - ex p.2)).sum

/-- The zipped element-wise sum as an indexed sum over positions. -/
theorem kl_zip_sum_eq (ex : ℚ → ℚ) (mu logvar : List ℚ) (n : ℕ)
    (hm : mu.length = n) (hl : logvar.length = n) :
    ((mu.zip logvar).map (fun p => 1 + p.2 - p.1 ^ 2 - ex p.2)).sum =
      ∑ i ∈ Finset.range n, (1 + logvar.getD i 0 - (mu.getD i 0) ^ 2 - ex (logvar.getD i 0)) := by
  induction mu generalizing logvar n with
  | nil =>
    cases logvar with
    | nil =>
      subst hm
      simp
    | cons b bs => simp at hm hl; omega
  | cons a as ih =>
    cases logvar with
    | nil => simp at hm hl; omega
    | cons b bs =>
      cases n with
      | zero => simp at hm
      | succ m =>
        simp only [List.length_cons, Nat.succ.injEq] at hm hl
        simp only [List.zip_cons_cons, List.map_cons, List.sum_cons]
        rw [Finset.sum_range_succ']
        rw [ih bs m hm hl]
        simp only [List.getD_cons_succ, List.getD_cons_zero]
        ring

/-- C8: `kl_divergence` equals the closed-form Gaussian KL divergence
against the standard normal summed over all elements,
`-0.5 * Σᵢ (1 + logvarᵢ - muᵢ² - exp logvarᵢ)`; and for all-zero `mu` and
`logvar` (of any length) it returns `0`, provided the exponential sends
`0` to `1`. -/
theorem kl_divergence_closed_form (ex : ℚ → ℚ) (mu logvar : List ℚ) (n : ℕ)
    (hm : mu.length = n) (hl : logvar.length = n) (hex : ex 0 = 1) :
    kl_divergence ex mu logvar =
      -0.5 * ∑ i ∈ Finset.range n,
        (1 + logvar.getD i 0 - (mu.getD i 0) ^ 2 - ex (logvar.getD i 0)) ∧
    kl_divergence ex (List.replicate n 0) (List.replicate n 0) = 0 := by
  constructor
  · rw [kl_divergence, kl_zip_sum_eq ex mu logvar n hm hl]
  · rw [kl_divergence, List.zip_replicate]
    simp [hex]

/-- Witness for `kl_divergence_closed_form` at a concrete input. -/
theorem kl_divergence_closed_form_witness :
    kl_divergence (fun _ => 1) [0] [0] =
      -0.5 * ∑ i ∈ Finset.range 1,
        (1 + List.getD [0] i 0 - (List.getD [0] i 0) ^ 2 - (fun (_ : ℚ) => (1 : ℚ)) (List.getD [0] i 0)) ∧
    kl_divergence (fun _ => 1) (List.replicate 1 0) (List.replicate 1 0) = 0 :=
  kl_divergence_closed_form (fun _ => 1) [0] [0] 1 rfl rfl rfl

end DMMVAE

namespace DMMVAE

/-! ## `calculate_r2` (src/mmvae/trainers/utils.py, lines 50-76) -/

/-- A tensor: a shape together with the flattened element list. -/
structure Tensor where
  shape : List ℕ
  data : List ℚ
deriving DecidableEq, Repr

/-- Result of `calculate_r2`.  `shapeError` is the raised `ValueError`;
`nonfinite` is a float result that is NaN or infinite — in the source this
arises exactly when the denominator `ss_tot` is `0`, so `ss_res / ss_tot`
is `0/0 = NaN` or `±inf`; `val r` is an ordinary finite result. -/
inductive R2Out where
  | shapeError
  | nonfinite
  | val (r : ℚ)
deriving DecidableEq, Repr

/-- Embedding of `calculate_r2`: shape check, mean of the input,
total sum of squares `ss_tot`, residual sum of squares `ss_res`
(element-wise difference of input and target, paired positionally),
and the score `1 - ss_res / ss_tot`. -/
def calculate_r2 (input target : Tensor) : R2Out :=
  if input.shape ≠ target.shape then R2Out.shapeError
  else
    let mean_input : ℚ := input.data.sum / (input.data.length : ℚ)
    let ss_tot : ℚ := (input.data.map (fun x => (x - mean_input) ^ 2)).sum
    let ss_res : ℚ := ((input.data.zip target.data).map (fun p => (p.1 - p.2) ^ 2)).sum
    if ss_tot = 0 then R2Out.nonfinite
    else R2Out.val (1 - ss_res / ss_tot)

/-- C7: `calculate_r2` raises `ValueError` exactly when the shapes of the
two tensors differ; equal shapes never trigger the shape check. -/
theorem calculate_r2_shape_error_iff (input target : Tensor) :
    calculate_r2 input target = R2Out.shapeError ↔ input.shape ≠ target.shape := by
  unfold calculate_r2
  by_cases h : input.shape = target.shape
  · simp [h]
    by_cases h2 :
        (input.data.map
          (fun x => (x - input.data.sum / (input.data.length : ℚ)) ^ 2)).sum = 0 <;>
      simp [h2]
  · simp [h]

/-- C3 counterexample: for the constant one-element tensor
`t = ⟨[1], [5]⟩`, `calculate_r2 t t` is the NaN outcome (`ss_tot = 0`,
so the source computes `1 - 0/0 = NaN`), not `1.0`. -/
theorem calculate_r2_self_counterexample :
    calculate_r2 ⟨[1], [5]⟩ ⟨[1], [5]⟩ = R2Out.nonfinite ∧
    R2Out.nonfinite ≠ R2Out.val 1 := by
  constructor
  · unfold calculate_r2
    norm_num
  · intro h
    exact R2Out.noConfusion h

/-- Sum of a list mapped through a nonnegative function is positive as
soon as one member maps to a positive value. -/
theorem sum_map_pos_of_mem {l : List ℚ} {g : ℚ → ℚ}
    (hg : ∀ x, 0 ≤ g x) {a : ℚ} (ha : a ∈ l) (hpos : 0 < g a) :
    0 < (l.map g).sum := by
  induction l with
  | nil => cases ha
  | cons b bs ih =>
    simp only [List.map_cons, List.sum_cons]
    rcases List.mem_cons.mp ha with h | h
    · subst h
      have : 0 ≤ (bs.map g).sum := by
        apply List.sum_nonneg
        intro x hx
        rcases List.mem_map.mp hx with ⟨y, _, rfl⟩
        exact hg y
      linarith
    · have := ih h
      have hb := hg b
      linarith

/-- C3 amended: `calculate_r2 t t = 1.0` for every tensor `t` whose data
contains two distinct values (so `ss_tot ≠ 0`); for constant tensors the
total sum of squares is `0` and the result is the NaN outcome
(`calculate_r2_self_counterexample`), not `1.0`. -/
theorem calculate_r2_self_eq_one (t : Tensor)
    (h : ∃ a ∈ t.data, ∃ b ∈ t.data, a ≠ b) :
    calculate_r2 t t = R2Out.val 1 := by
  obtain ⟨a, ha, b, hb, hab⟩ := h
  unfold calculate_r2
  simp only [ne_eq, not_true_eq_false, if_false, if_neg]
  · have hres : ((t.data.zip t.data).map (fun p => (p.1 - p.2) ^ 2)).sum = 0 := by
      induction t.data with
      | nil => rfl
      | cons x xs ih => simpa using ih
    rw [if_neg, hres]
    · norm_num
    · set μ : ℚ := t.data.sum / (t.data.length : ℚ) with hμ
      have hkey : a ≠ μ ∨ b ≠ μ := by
        by_contra hc
        push_neg at hc
        exact hab (hc.1.trans hc.2.symm)
      have hg : ∀ x : ℚ, 0 ≤ (x - μ) ^ 2 := fun x => sq_nonneg _
      rcases hkey with hk | hk
      · have hlt : 0 < (a - μ) ^ 2 := sq_pos_of_ne_zero (sub_ne_zero.mpr hk)
        exact ne_of_gt (sum_map_pos_of_mem hg ha hlt)
      · have hlt : 0 < (b - μ) ^ 2 := sq_pos_of_ne_zero (sub_ne_zero.mpr hk)
        exact ne_of_gt (sum_map_pos_of_mem hg hb hlt)

/-- Witness for `calculate_r2_self_eq_one` at a concrete input. -/
theorem calculate_r2_self_eq_one_witness :
    calculate_r2 ⟨[2], [0, 1]⟩ ⟨[2], [0, 1]⟩ = R2Out.val 1 :=
  calculate_r2_self_eq_one ⟨[2], [0, 1]⟩
    ⟨0, by simp, 1, by simp, by norm_num⟩

end DMMVAE

namespace DMMVAE

/-! ## `normalize_data`
(src/scripts/data-preprocessing/data_processing_functions.py, lines 12-31) -/

/-- A matrix in compressed sparse row format: `data.shape = (rows, cols)`,
row pointers `indptr`, column indices `indices`, stored values `data`. -/
structure Csr where
  rows : ℕ
  cols : ℕ
  indptr : List ℕ
  indices : List ℕ
  data : List ℚ
deriving DecidableEq, Repr

/-- Well-formedness of a CSR matrix: `indptr` has one entry per row plus
one, starts at `0`, is monotone, and ends at the number of stored values. -/
def Csr.WF (m : Csr) : Prop :=
  m.indptr.length = m.rows + 1 ∧
  m.indptr.getD 0 0 = 0 ∧
  (∀ r < m.rows, m.indptr.getD r 0 ≤ m.indptr.getD (r + 1) 0) ∧
  m.indptr.getD m.rows 0 = m.data.length

/-- Number of stored entries of row `r`: `indptr[row + 1] - indptr[row]`. -/
def rowLen (m : Csr) (r : ℕ) : ℕ :=
  m.indptr.getD (r + 1) 0 - m.indptr.getD r 0

/-- The stored values of row `r`: the slice
`data[indptr[row] : indptr[row + 1]]` read by `data.getrow(row).data`. -/
def rowData (m : Csr) (r : ℕ) : List ℚ :=
  (m.data.drop (m.indptr.getD r 0)).take (rowLen m r)

/-- The per-row body of the `normalize_data` loop: `row_sum = row_data.sum()`
and every stored value `v` becomes `log1p((v * 1e4) / row_sum)`.  The library
`np.log1p` is an abstract parameter. -/
def normRow (log1p : ℚ → ℚ) (rd : List ℚ) : List ℚ :=
  let row_sum := rd.sum
  rd.map (fun v => log1p (v * 10000 / row_sum))

/-- The loop of `normalize_data` over the flat `data` array, driven by the
list of row lengths: each row slice is replaced by its normalized values. -/
def normalizeFlat (log1p : ℚ → ℚ) : List ℕ → List ℚ → List ℚ
  | [], _ => []
  | n :: rest, d => normRow log1p (d.take n) ++ normalizeFlat log1p rest (d.drop n)

/-- The row lengths of all rows of `m`, in order. -/
def rowLens (m : Csr) : List ℕ :=
  (List.range m.rows).map (rowLen m)

/-- Embedding of `normalize_data`: only the stored-value array `data` is
written; `shape`, `indptr` and `indices` are untouched. -/
def normalize_data (log1p : ℚ → ℚ) (m : Csr) : Csr :=
  { m with data := normalizeFlat log1p (rowLens m) m.data }

end DMMVAE

namespace DMMVAE

/-- `normRow` preserves the number of stored values of a row slice. -/
theorem normRow_length (log1p : ℚ → ℚ) (rd : List ℚ) :
    (normRow log1p rd).length = rd.length := by
  simp [normRow]

/-- The `r`-th block of the output of `normalizeFlat` is the normalized
`r`-th block of the input, as long as the first `r + 1` blocks fit inside
the data array. -/
theorem normalizeFlat_block (log1p : ℚ → ℚ) :
    ∀ (r : ℕ) (lens : List ℕ) (d : List ℚ), r < lens.length →
      (lens.take (r + 1)).sum ≤ d.length →
      ((normalizeFlat log1p lens d).drop ((lens.take r).sum)).take (lens.getD r 0) =
        normRow log1p ((d.drop ((lens.take r).sum)).take (lens.getD r 0))
  | 0, [], _, hr, _ => absurd hr (by simp)
  | 0, n :: rest, d, _, hfit => by
      simp only [List.take_zero, List.sum_nil, List.drop_zero, List.getD_cons_zero]
      rw [normalizeFlat]
      refine List.take_left' ?_
      rw [normRow_length, List.length_take]
      simp only [List.take_succ_cons, List.take_zero, List.sum_cons, List.sum_nil,
        add_zero] at hfit
      omega
  | r + 1, [], _, hr, _ => absurd hr (by simp)
  | r + 1, n :: rest, d, hr, hfit => by
      simp only [List.length_cons, Nat.add_lt_add_iff_right] at hr
      simp only [List.take_succ_cons, List.sum_cons, List.getD_cons_succ] at hfit ⊢
      have hnd : n ≤ d.length := by
        have := (rest.take (r + 1)).sum.zero_le
        omega
      rw [normalizeFlat]
      conv_rhs => rw [← List.drop_drop]
      set A := normRow log1p (d.take n) with hA
      have hlenA : A.length = n := by
        rw [hA, normRow_length, List.length_take]
        omega
      rw [← hlenA, List.drop_append]
      have hfit2 : (rest.take (r + 1)).sum ≤ (d.drop A.length).length := by
        rw [List.length_drop]
        omega
      exact normalizeFlat_block log1p r rest (d.drop A.length) hr hfit2

/-- `rowLens` reads off `rowLen` position by position. -/
theorem rowLens_getD (m : Csr) (r : ℕ) (hr : r < m.rows) :
    (rowLens m).getD r 0 = rowLen m r := by
  have hlen : r < (rowLens m).length := by
    simp only [rowLens, List.length_map, List.length_range]
    omega
  rw [List.getD_eq_getElem _ _ hlen]
  simp [rowLens, List.getElem_map, List.getElem_range]

/-- For a well-formed CSR matrix, `indptr[r]` is the total length of the
first `r` row slices. -/
theorem indptr_eq_sum_take (m : Csr) (hWF : m.WF) (r : ℕ) (hr : r ≤ m.rows) :
    m.indptr.getD r 0 = ((rowLens m).take r).sum := by
  induction r with
  | zero => simpa using hWF.2.1
  | succ k ih =>
    have hk : k < m.rows := by omega
    have hlen : k < (rowLens m).length := by
      simp only [rowLens, List.length_map, List.length_range]
      omega
    rw [List.sum_take_succ _ _ hlen, ← ih (by omega)]
    have hget : (rowLens m)[k] = rowLen m k := by
      simp [rowLens, List.getElem_map, List.getElem_range]
    rw [hget, rowLen]
    have hmono := hWF.2.2.1 k hk
    omega

/-- For a well-formed CSR matrix, the first `r` row slices fit inside the
data array. -/
theorem sum_take_rowLens_le (m : Csr) (hWF : m.WF) (r : ℕ) :
    ((rowLens m).take r).sum ≤ m.data.length := by
  have hsub : ((rowLens m).take r).Sublist (rowLens m) := List.take_sublist _ _
  have hle : ((rowLens m).take r).sum ≤ (rowLens m).sum :=
    hsub.sum_le_sum (fun a _ => Nat.zero_le a)
  have hlen : (rowLens m).length = m.rows := by
    simp [rowLens]
  have hfull : (rowLens m).sum = m.data.length := by
    have h1 := indptr_eq_sum_take m hWF m.rows (le_refl _)
    have h2 : (rowLens m).take m.rows = rowLens m := by
      rw [← hlen]
      exact List.take_length _
    rw [h2] at h1
    rw [← h1, hWF.2.2.2]
  omega

/-- `rowData` written through `rowLens` prefix sums. -/
theorem rowData_eq_block (m : Csr) (hWF : m.WF) (r : ℕ) (hr : r < m.rows) :
    rowData m r =
      (m.data.drop (((rowLens m).take r).sum)).take ((rowLens m).getD r 0) := by
  rw [rowData, indptr_eq_sum_take m hWF r (le_of_lt hr), rowLens_getD m r hr]

/-- Scaling every element and dividing by a common denominator scales the
sum the same way. -/
theorem sum_map_mul_div (l : List ℚ) (c s : ℚ) :
    (l.map (fun v => v * c / s)).sum = l.sum * c / s := by
  induction l with
  | nil => simp
  | cons x xs ih =>
    simp only [List.map_cons, List.sum_cons, ih]
    ring

end DMMVAE

namespace DMMVAE

/-- C5: on a well-formed CSR matrix in which every row with stored entries
has positive stored-value sum, `normalize_data` leaves the sparsity pattern
(shape, `indices`, `indptr`) unchanged, replaces each stored value `v` of a
row with sum `s` by `log1p(v * 1e4 / s)`, and the pre-log values of each
nonempty row sum to `10000`. -/
theorem normalize_data_spec (log1p : ℚ → ℚ) (m : Csr) (hWF : m.WF)
    (hpos : ∀ r < m.rows, rowData m r ≠ [] → 0 < (rowData m r).sum) :
    (normalize_data log1p m).rows = m.rows ∧
    (normalize_data log1p m).cols = m.cols ∧
    (normalize_data log1p m).indptr = m.indptr ∧
    (normalize_data log1p m).indices = m.indices ∧
    ∀ r < m.rows,
      rowData (normalize_data log1p m) r =
        (rowData m r).map (fun v => log1p (v * 10000 / (rowData m r).sum)) ∧
      (rowData m r ≠ [] →
        ((rowData m r).map (fun v => v * 10000 / (rowData m r).sum)).sum = 10000) := by
  refine ⟨rfl, rfl, rfl, rfl, ?_⟩
  intro r hr
  constructor
  · have hlens : r < (rowLens m).length := by
      simp only [rowLens, List.length_map, List.length_range]
      omega
    have hfit : ((rowLens m).take (r + 1)).sum ≤ m.data.length :=
      sum_take_rowLens_le m hWF (r + 1)
    have hblk := normalizeFlat_block log1p r (rowLens m) m.data hlens hfit
    have hres : rowData (normalize_data log1p m) r =
        ((normalizeFlat log1p (rowLens m) m.data).drop
          (((rowLens m).take r).sum)).take ((rowLens m).getD r 0) := by
      rw [rowData]
      show ((normalizeFlat log1p (rowLens m) m.data).drop (m.indptr.getD r 0)).take
          (rowLen m r) = _
      rw [indptr_eq_sum_take m hWF r (le_of_lt hr), rowLens_getD m r hr]
    rw [hres, hblk, ← rowData_eq_block m hWF r hr, normRow]
  · intro hne
    have hs := hpos r hr hne
    have hs0 : (rowData m r).sum ≠ 0 := ne_of_gt hs
    rw [sum_map_mul_div]
    field_simp

/-- Witness for `normalize_data_spec` at a concrete matrix
(one row, two stored values `3` and `1`). -/
theorem normalize_data_spec_witness :
    (normalize_data (fun q => q) ⟨1, 2, [0, 2], [0, 1], [3, 1]⟩).rows =
      (⟨1, 2, [0, 2], [0, 1], [3, 1]⟩ : Csr).rows ∧
    (normalize_data (fun q => q) ⟨1, 2, [0, 2], [0, 1], [3, 1]⟩).cols =
      (⟨1, 2, [0, 2], [0, 1], [3, 1]⟩ : Csr).cols ∧
    (normalize_data (fun q => q) ⟨1, 2, [0, 2], [0, 1], [3, 1]⟩).indptr =
      (⟨1, 2, [0, 2], [0, 1], [3, 1]⟩ : Csr).indptr ∧
    (normalize_data (fun q => q) ⟨1, 2, [0, 2], [0, 1], [3, 1]⟩).indices =
      (⟨1, 2, [0, 2], [0, 1], [3, 1]⟩ : Csr).indices ∧
    ∀ r < (⟨1, 2, [0, 2], [0, 1], [3, 1]⟩ : Csr).rows,
      rowData (normalize_data (fun q => q) ⟨1, 2, [0, 2], [0, 1], [3, 1]⟩) r =
        (rowData ⟨1, 2, [0, 2], [0, 1], [3, 1]⟩ r).map
          (fun v => (fun q => q)
            (v * 10000 / (rowData ⟨1, 2, [0, 2], [0, 1], [3, 1]⟩ r).sum)) ∧
      (rowData ⟨1, 2, [0, 2], [0, 1], [3, 1]⟩ r ≠ [] →
        ((rowData ⟨1, 2, [0, 2], [0, 1], [3, 1]⟩ r).map
          (fun v => v * 10000 / (rowData ⟨1, 2, [0, 2], [0, 1], [3, 1]⟩ r).sum)).sum =
          10000) :=
  normalize_data_spec (fun q => q) ⟨1, 2, [0, 2], [0, 1], [3, 1]⟩
    (by constructor
        · decide
        · refine ⟨by decide, ?_, by decide⟩
          intro r hr
          interval_cases r
          decide)
    (by intro r hr
        interval_cases r
        intro h
        norm_num [rowData, rowLen])

end DMMVAE

namespace DMMVAE

/-! ## C9: the division in `normalize_data` is unguarded -/

/-- `normalizeFlat` instrumented with a flag recording whether any row
executed the element-wise division `(row_data * 1e4) / row_sum` with
`row_sum = 0`: this happens exactly when a row slice is nonempty and its
stored values sum to zero (an empty slice performs no element division). -/
def normalizeFlatFlag (log1p : ℚ → ℚ) : List ℕ → List ℚ → List ℚ × Bool
  | [], _ => ([], false)
  | n :: rest, d =>
    let res := normalizeFlatFlag log1p rest (d.drop n)
    (normRow log1p (d.take n) ++ res.1,
      (decide (d.take n ≠ [] ∧ (d.take n).sum = 0) || res.2))

/-- The instrumented run computes exactly the values of `normalizeFlat`:
the division by zero is silent, it never raises. -/
theorem normalizeFlatFlag_fst (log1p : ℚ → ℚ) :
    ∀ (lens : List ℕ) (d : List ℚ),
      (normalizeFlatFlag log1p lens d).1 = normalizeFlat log1p lens d
  | [], _ => rfl
  | n :: rest, d => by
    rw [normalizeFlatFlag, normalizeFlat]
    simp only
    rw [normalizeFlatFlag_fst log1p rest (d.drop n)]

/-- The division-by-zero flag is clear exactly when every nonempty row
slice has nonzero stored-value sum. -/
theorem normalizeFlatFlag_snd (log1p : ℚ → ℚ) :
    ∀ (lens : List ℕ) (d : List ℚ),
      (normalizeFlatFlag log1p lens d).2 = false ↔
        ∀ r < lens.length,
          (d.drop ((lens.take r).sum)).take (lens.getD r 0) ≠ [] →
          ((d.drop ((lens.take r).sum)).take (lens.getD r 0)).sum ≠ 0
  | [], d => by simp [normalizeFlatFlag]
  | n :: rest, d => by
    rw [normalizeFlatFlag]
    simp only [Bool.or_eq_false_iff, decide_eq_false_iff_not]
    rw [normalizeFlatFlag_snd log1p rest (d.drop n)]
    constructor
    · rintro ⟨h0, hrest⟩ r hr
      cases r with
      | zero =>
        simp only [List.take_zero, List.sum_nil, List.drop_zero, List.getD_cons_zero]
        intro hne
        exact fun hz => h0 ⟨hne, hz⟩
      | succ k =>
        simp only [List.length_cons, Nat.add_lt_add_iff_right] at hr
        simp only [List.take_succ_cons, List.sum_cons, List.getD_cons_succ]
        rw [← List.drop_drop]
        exact hrest k hr
    · intro h
      constructor
      · intro ⟨hne, hz⟩
        have h0 := h 0 (by simp) (by simpa using hne)
        simp only [List.take_zero, List.sum_nil, List.drop_zero,
          List.getD_cons_zero] at h0
        exact h0 hz
      · intro k hk
        have hk1 := h (k + 1) (by simpa using hk)
        simp only [List.take_succ_cons, List.sum_cons, List.getD_cons_succ] at hk1
        rw [← List.drop_drop] at hk1
        exact hk1

/-- `normalize_data` instrumented with the division-by-zero flag. -/
def normalizeDataFlag (log1p : ℚ → ℚ) (m : Csr) : Csr × Bool :=
  let res := normalizeFlatFlag log1p (rowLens m) m.data
  ({ m with data := res.1 }, res.2)

/-- C9: on a well-formed CSR matrix, the division-by-zero branch of
`normalize_data` is unreachable exactly when every row with stored
entries has nonzero stored-value sum, and in every case — division by
zero included — the computation completes and returns the same result as
`normalize_data`: no error is raised. -/
theorem normalize_data_div_by_zero (log1p : ℚ → ℚ) (m : Csr) (hWF : m.WF) :
    ((normalizeDataFlag log1p m).2 = false ↔
      ∀ r < m.rows, rowData m r ≠ [] → (rowData m r).sum ≠ 0) ∧
    (normalizeDataFlag log1p m).1 = normalize_data log1p m := by
  constructor
  · rw [normalizeDataFlag]
    simp only
    rw [normalizeFlatFlag_snd]
    have hlen : (rowLens m).length = m.rows := by simp [rowLens]
    constructor
    · intro h r hr
      rw [rowData_eq_block m hWF r hr]
      exact h r (by omega)
    · intro h r hr
      have hr2 : r < m.rows := by omega
      rw [← rowData_eq_block m hWF r hr2]
      exact h r hr2
  · rw [normalizeDataFlag, normalize_data]
    simp only [normalizeFlatFlag_fst]

/-- Witness for `normalize_data_div_by_zero`: a well-formed matrix with a
single nonempty row whose only stored value is `0` (row sum `0`); the flag
is set, yet a full result is produced. -/
theorem normalize_data_div_by_zero_witness :
    ((normalizeDataFlag (fun q => q) ⟨1, 1, [0, 1], [0], [0]⟩).2 = false ↔
      ∀ r < (⟨1, 1, [0, 1], [0], [0]⟩ : Csr).rows,
        rowData ⟨1, 1, [0, 1], [0], [0]⟩ r ≠ [] →
        (rowData ⟨1, 1, [0, 1], [0], [0]⟩ r).sum ≠ 0) ∧
    (normalizeDataFlag (fun q => q) ⟨1, 1, [0, 1], [0], [0]⟩).1 =
      normalize_data (fun q => q) ⟨1, 1, [0, 1], [0], [0]⟩ :=
  normalize_data_div_by_zero (fun q => q) ⟨1, 1, [0, 1], [0], [0]⟩
    (by refine ⟨by decide, by decide, ?_, by decide⟩
        intro r hr
        interval_cases r
        decide)

end DMMVAE

namespace DMMVAE

/-! ## `verify_data`
(src/scripts/data-preprocessing/data_processing_functions.py, lines 75-137) -/

/-- One chunk as seen by `verify_data`: the matrix row count
(`data.shape[0]`) and the metadata column `soma_joinid` as a list. -/
structure Chunk where
  nRows : ℕ
  somaIds : List ℤ
deriving DecidableEq, Repr

/-- The messages `verify_data` prints, tagged with the 1-based chunk
number interpolated into each message. -/
inductive Msg where
  | chunkSizeMismatch (i : ℕ)
  | metadataMismatch (i : ℕ)
  | duplicateIds (i : ℕ)
  | noIssues (i : ℕ)
deriving DecidableEq, Repr

/-- The chunk number carried by a message. -/
def msgIndex : Msg → ℕ
  | .chunkSizeMismatch i => i
  | .metadataMismatch i => i
  | .duplicateIds i => i
  | .noIssues i => i

/-- The messages printed by one iteration of the `verify_data` loop for
chunk number `i`.  The three checks mirror the source: the chunk-size
check (with the `last_chunk`/`last_size` special case, where a Python
comparison of an `int` against `None` is always "not equal", modelled by
comparing against an `Option ℕ`), the metadata/matrix row-count check,
and the duplicate-ID check `len(set(soma_ids)) != len(soma_ids)`; if no
check fired, the no-issues message is printed instead. -/
def chunkMsgs (expected_size : ℕ) (last_chunk last_size : Option ℕ)
    (i : ℕ) (c : Chunk) : List Msg :=
  let sizeWarn : List Msg :=
    if c.nRows ≠ expected_size then
      if some i ≠ last_chunk then [Msg.chunkSizeMismatch i]
      else if some c.nRows ≠ last_size then [Msg.chunkSizeMismatch i]
      else []
    else []
  let metaWarn : List Msg :=
    if c.somaIds.length ≠ c.nRows then [Msg.metadataMismatch i] else []
  let dupWarn : List Msg :=
    if c.somaIds.toFinset.card ≠ c.somaIds.length then [Msg.duplicateIds i] else []
  let warns := sizeWarn ++ metaWarn ++ dupWarn
  if warns = [] then [Msg.noIssues i] else warns

/-- The `verify_data` loop: `i` is the 1-based chunk counter, `ids` the
mutable set of expected `soma_joinid`s, shrunk in place by
`ids.intersection_update(set_ids)` on every iteration.  Returns the
printed messages in order and the final state of `ids`. -/
def verifyAux (expected_size : ℕ) (last_chunk last_size : Option ℕ) :
    ℕ → Finset ℤ → List Chunk → List Msg × Finset ℤ
  | _, ids, [] => ([], ids)
  | i, ids, c :: rest =>
    let msgs := chunkMsgs expected_size last_chunk last_size i c
    let res := verifyAux expected_size last_chunk last_size (i + 1)
      (ids ∩ c.somaIds.toFinset) rest
    (msgs ++ res.1, res.2)

/-- Embedding of `verify_data`: the chunks stand for the sorted, zipped
`(data, metadata)` file pairs; enumeration starts at `1`. -/
def verify_data (chunks : List Chunk) (expected_size : ℕ)
    (last_chunk last_size : Option ℕ) (ids : Finset ℤ) : List Msg × Finset ℤ :=
  verifyAux expected_size last_chunk last_size 1 ids chunks

end DMMVAE

namespace DMMVAE

/-- Every message printed for chunk `i` carries chunk number `i`. -/
theorem msgIndex_of_mem_chunkMsgs {expected_size : ℕ}
    {last_chunk last_size : Option ℕ} {i : ℕ} {c : Chunk} {m : Msg}
    (hm : m ∈ chunkMsgs expected_size last_chunk last_size i c) :
    msgIndex m = i := by
  cases m <;>
    · simp only [chunkMsgs] at hm
      split_ifs at hm <;> simp_all [msgIndex]

/-- `chunkMsgs` always prints at least one message per chunk. -/
theorem chunkMsgs_ne_nil (expected_size : ℕ) (last_chunk last_size : Option ℕ)
    (i : ℕ) (c : Chunk) :
    chunkMsgs expected_size last_chunk last_size i c ≠ [] := by
  simp only [chunkMsgs]
  split_ifs <;> simp_all

/-- The duplicate-ID message for chunk `i` is printed exactly when
`len(set(soma_ids)) != len(soma_ids)`. -/
theorem duplicate_mem_chunkMsgs_iff (expected_size : ℕ)
    (last_chunk last_size : Option ℕ) (i : ℕ) (c : Chunk) :
    Msg.duplicateIds i ∈ chunkMsgs expected_size last_chunk last_size i c ↔
      c.somaIds.toFinset.card ≠ c.somaIds.length := by
  simp only [chunkMsgs]
  split_ifs <;> simp_all

/-- The metadata-mismatch message for chunk `i` is printed exactly when
the `soma_joinid` count differs from the matrix row count. -/
theorem metadata_mem_chunkMsgs_iff (expected_size : ℕ)
    (last_chunk last_size : Option ℕ) (i : ℕ) (c : Chunk) :
    Msg.metadataMismatch i ∈ chunkMsgs expected_size last_chunk last_size i c ↔
      c.somaIds.length ≠ c.nRows := by
  simp only [chunkMsgs]
  split_ifs <;> simp_all

/-- The chunk-size message for chunk `i` is printed exactly when the row
count differs from `expected_size` and, in case `i` is the last chunk,
also differs from `last_size`. -/
theorem size_mem_chunkMsgs_iff (expected_size : ℕ)
    (last_chunk last_size : Option ℕ) (i : ℕ) (c : Chunk) :
    Msg.chunkSizeMismatch i ∈ chunkMsgs expected_size last_chunk last_size i c ↔
      (c.nRows ≠ expected_size ∧
        (some i ≠ last_chunk ∨ some c.nRows ≠ last_size)) := by
  simp only [chunkMsgs]
  split_ifs <;> simp_all

end DMMVAE

namespace DMMVAE

/-- A message is printed iff some chunk's iteration printed it; chunk `k`
(0-based position) runs with chunk number `i + k`. -/
theorem mem_verifyAux_fst (expected_size : ℕ) (last_chunk last_size : Option ℕ) :
    ∀ (chunks : List Chunk) (i : ℕ) (ids : Finset ℤ) (m : Msg),
      m ∈ (verifyAux expected_size last_chunk last_size i ids chunks).1 ↔
        ∃ k c, chunks[k]? = some c ∧
          m ∈ chunkMsgs expected_size last_chunk last_size (i + k) c
  | [], i, ids, m => by simp [verifyAux]
  | c :: rest, i, ids, m => by
    rw [verifyAux]
    simp only [List.mem_append]
    rw [mem_verifyAux_fst expected_size last_chunk last_size rest (i + 1)
      (ids ∩ c.somaIds.toFinset) m]
    constructor
    · rintro (h | ⟨k, c2, hk, hm⟩)
      · exact ⟨0, c, by simp, by simpa using h⟩
      · refine ⟨k + 1, c2, by simpa using hk, ?_⟩
        rw [show i + (k + 1) = i + 1 + k by omega]
        exact hm
    · rintro ⟨k, c2, hk, hm⟩
      cases k with
      | zero =>
        left
        simp only [List.getElem?_cons_zero, Option.some.injEq] at hk
        subst hk
        simpa using hm
      | succ k2 =>
        right
        refine ⟨k2, c2, by simpa using hk, ?_⟩
        rw [show i + 1 + k2 = i + (k2 + 1) by omega]
        exact hm

/-- The printed messages do not depend on the `ids` argument. -/
theorem verifyAux_fst_independent (expected_size : ℕ)
    (last_chunk last_size : Option ℕ) :
    ∀ (chunks : List Chunk) (i : ℕ) (ids1 ids2 : Finset ℤ),
      (verifyAux expected_size last_chunk last_size i ids1 chunks).1 =
        (verifyAux expected_size last_chunk last_size i ids2 chunks).1
  | [], _, _, _ => rfl
  | c :: rest, i, ids1, ids2 => by
    rw [verifyAux, verifyAux]
    simp only
    rw [verifyAux_fst_independent expected_size last_chunk last_size rest (i + 1)
      (ids1 ∩ c.somaIds.toFinset) (ids2 ∩ c.somaIds.toFinset)]

/-- The returned set is the initial set intersected with every chunk's
`soma_joinid` set. -/
theorem mem_verifyAux_snd (expected_size : ℕ) (last_chunk last_size : Option ℕ) :
    ∀ (chunks : List Chunk) (i : ℕ) (ids : Finset ℤ) (x : ℤ),
      x ∈ (verifyAux expected_size last_chunk last_size i ids chunks).2 ↔
        x ∈ ids ∧ ∀ c ∈ chunks, x ∈ c.somaIds.toFinset
  | [], i, ids, x => by simp [verifyAux]
  | c :: rest, i, ids, x => by
    rw [verifyAux]
    simp only
    rw [mem_verifyAux_snd expected_size last_chunk last_size rest (i + 1)
      (ids ∩ c.somaIds.toFinset) x]
    simp only [Finset.mem_inter, List.mem_cons]
    constructor
    · rintro ⟨⟨hx, hc⟩, hrest⟩
      exact ⟨hx, fun d hd => by rcases hd with rfl | hd; exacts [hc, hrest d hd]⟩
    · rintro ⟨hx, hall⟩
      exact ⟨⟨hx, hall c (Or.inl rfl)⟩, fun d hd => hall d (Or.inr hd)⟩

end DMMVAE

namespace DMMVAE

/-- `len(set(l)) != len(l)` detects exactly the lists with a repeat. -/
theorem toFinset_card_ne_length_iff (l : List ℤ) :
    l.toFinset.card ≠ l.length ↔ ¬ l.Nodup := by
  rw [List.card_toFinset]
  constructor
  · intro h hn
    exact h (by rw [List.dedup_eq_self.mpr hn])
  · intro h hlen
    exact h (List.dedup_eq_self.mp
      (List.Sublist.eq_of_length (List.dedup_sublist l) hlen))

/-- C4: for chunk number `i = k + 1` (the chunk at 0-based position `k`),
`verify_data` prints the duplicate-ID warning iff the chunk's
`soma_joinid` list has a repeat, the metadata-mismatch warning iff the
`soma_joinid` count differs from the matrix row count, and the chunk-size
warning iff the row count differs from `expected_size` — except when `i`
is the last chunk, where it warns iff the row count also differs from
`last_size`; and every chunk prints at least one message, so processing
runs through all chunks (the function is total: nothing is raised). -/
theorem verify_data_warnings_iff (chunks : List Chunk) (expected_size : ℕ)
    (last_chunk last_size : Option ℕ) (ids : Finset ℤ) (k : ℕ) (c : Chunk)
    (hc : chunks[k]? = some c) :
    (Msg.duplicateIds (k + 1) ∈
        (verify_data chunks expected_size last_chunk last_size ids).1 ↔
      ¬ c.somaIds.Nodup) ∧
    (Msg.metadataMismatch (k + 1) ∈
        (verify_data chunks expected_size last_chunk last_size ids).1 ↔
      c.somaIds.length ≠ c.nRows) ∧
    (last_chunk ≠ some (k + 1) →
      (Msg.chunkSizeMismatch (k + 1) ∈
          (verify_data chunks expected_size last_chunk last_size ids).1 ↔
        c.nRows ≠ expected_size)) ∧
    (last_chunk = some (k + 1) →
      (Msg.chunkSizeMismatch (k + 1) ∈
          (verify_data chunks expected_size last_chunk last_size ids).1 ↔
        (c.nRows ≠ expected_size ∧ some c.nRows ≠ last_size))) ∧
    (∃ m ∈ (verify_data chunks expected_size last_chunk last_size ids).1,
      msgIndex m = k + 1) := by
  have hmem : ∀ m : Msg, msgIndex m = k + 1 →
      (m ∈ (verify_data chunks expected_size last_chunk last_size ids).1 ↔
        m ∈ chunkMsgs expected_size last_chunk last_size (k + 1) c) := by
    intro m hidx
    rw [verify_data, mem_verifyAux_fst]
    constructor
    · rintro ⟨k2, c2, hk2, hm2⟩
      have := msgIndex_of_mem_chunkMsgs hm2
      have hkk : k2 = k := by omega
      rw [hkk] at hk2 hm2
      rw [hc] at hk2
      cases hk2
      rw [Nat.add_comm 1 k] at hm2
      exact hm2
    · intro hm
      refine ⟨k, c, hc, ?_⟩
      rw [Nat.add_comm 1 k]
      exact hm
  refine ⟨?_, ?_, ?_, ?_, ?_⟩
  · rw [hmem (Msg.duplicateIds (k + 1)) rfl, duplicate_mem_chunkMsgs_iff,
      toFinset_card_ne_length_iff]
  · rw [hmem (Msg.metadataMismatch (k + 1)) rfl, metadata_mem_chunkMsgs_iff]
  · intro hlast
    rw [hmem (Msg.chunkSizeMismatch (k + 1)) rfl, size_mem_chunkMsgs_iff]
    constructor
    · rintro ⟨h1, _⟩
      exact h1
    · intro h1
      exact ⟨h1, Or.inl (fun h => hlast h.symm)⟩
  · intro hlast
    rw [hmem (Msg.chunkSizeMismatch (k + 1)) rfl, size_mem_chunkMsgs_iff]
    constructor
    · rintro ⟨h1, h2 | h2⟩
      · exact absurd hlast.symm h2
      · exact ⟨h1, h2⟩
    · rintro ⟨h1, h2⟩
      exact ⟨h1, Or.inr h2⟩
  · obtain ⟨m, hm⟩ := List.exists_mem_of_ne_nil _
      (chunkMsgs_ne_nil expected_size last_chunk last_size (k + 1) c)
    have hidx := msgIndex_of_mem_chunkMsgs hm
    exact ⟨m, (hmem m hidx).mpr hm, hidx⟩

/-- Witness for `verify_data_warnings_iff` at a concrete input: one chunk
with two rows, duplicated ids `[7, 7]`, checked against
`expected_size = 1`. -/
theorem verify_data_warnings_iff_witness :
    (Msg.duplicateIds (0 + 1) ∈
        (verify_data [⟨2, [7, 7]⟩] 1 none none ∅).1 ↔
      ¬ ([7, 7] : List ℤ).Nodup) ∧
    (Msg.metadataMismatch (0 + 1) ∈
        (verify_data [⟨2, [7, 7]⟩] 1 none none ∅).1 ↔
      ([7, 7] : List ℤ).length ≠ 2) ∧
    ((none : Option ℕ) ≠ some (0 + 1) →
      (Msg.chunkSizeMismatch (0 + 1) ∈
          (verify_data [⟨2, [7, 7]⟩] 1 none none ∅).1 ↔
        2 ≠ 1)) ∧
    ((none : Option ℕ) = some (0 + 1) →
      (Msg.chunkSizeMismatch (0 + 1) ∈
          (verify_data [⟨2, [7, 7]⟩] 1 none none ∅).1 ↔
        (2 ≠ 1 ∧ some 2 ≠ (none : Option ℕ)))) ∧
    (∃ m ∈ (verify_data [⟨2, [7, 7]⟩] 1 none none ∅).1,
      msgIndex m = 0 + 1) :=
  verify_data_warnings_iff [⟨2, [7, 7]⟩] 1 none none ∅ 0 ⟨2, [7, 7]⟩ rfl

end DMMVAE

namespace DMMVAE

/-- C2 counterexample: two chunks both containing `soma_joinid = 5` — a
cross-chunk duplication — yet the only printed messages are the two
no-issues lines; nothing reports the duplication. -/
theorem verify_data_cross_chunk_counterexample :
    (verify_data [⟨1, [5]⟩, ⟨1, [5]⟩] 1 none none {5}).1 =
      [Msg.noIssues 1, Msg.noIssues 2] ∧
    (5 : ℤ) ∈ (([⟨1, [5]⟩, ⟨1, [5]⟩] : List Chunk)[0]).somaIds ∧
    (5 : ℤ) ∈ (([⟨1, [5]⟩, ⟨1, [5]⟩] : List Chunk)[1]).somaIds := by
  refine ⟨?_, by decide, by decide⟩
  decide

/-- C2 amended: `verify_data` only tracks cross-chunk duplication via the
in-place intersection of the `ids` set; it never prints it.  The printed
output is independent of the `ids` argument, hence of any cross-chunk
overlap information it could accumulate, while the returned set is the
initial set intersected with every chunk's `soma_joinid` set. -/
theorem verify_data_cross_chunk_tracking_only (chunks : List Chunk)
    (expected_size : ℕ) (last_chunk last_size : Option ℕ)
    (ids1 ids2 : Finset ℤ) :
    (verify_data chunks expected_size last_chunk last_size ids1).1 =
      (verify_data chunks expected_size last_chunk last_size ids2).1 ∧
    ∀ x : ℤ, x ∈ (verify_data chunks expected_size last_chunk last_size ids1).2 ↔
      x ∈ ids1 ∧ ∀ c ∈ chunks, x ∈ c.somaIds.toFinset := by
  constructor
  · exact verifyAux_fst_independent expected_size last_chunk last_size chunks 1
      ids1 ids2
  · intro x
    exact mem_verifyAux_snd expected_size last_chunk last_size chunks 1 ids1 x

/-- C10: `verify_data` shrinks the caller's `ids` set in place: the final
set is the originally passed set intersected with the `soma_joinid` set of
every chunk processed, so `ids` only ever shrinks (it is a subset of the
original). -/
theorem verify_data_ids_intersection (chunks : List Chunk)
    (expected_size : ℕ) (last_chunk last_size : Option ℕ) (ids : Finset ℤ) :
    (∀ x : ℤ, x ∈ (verify_data chunks expected_size last_chunk last_size ids).2 ↔
      x ∈ ids ∧ ∀ c ∈ chunks, x ∈ c.somaIds.toFinset) ∧
    (verify_data chunks expected_size last_chunk last_size ids).2 ⊆ ids := by
  have h := fun x =>
    mem_verifyAux_snd expected_size last_chunk last_size chunks 1 ids x
  exact ⟨h, fun x hx => ((h x).mp hx).1⟩

end DMMVAE
